import Mathlib

/-! # Dashboard: project registry, metrics cache and source-control provider

A shallow embedding of `project.go` and `github.go`.

* Go strings are `String`, Go `int` is `Int`, a nilable pointer is an `Option`.
* The registry `defaultProjects` is a list of project cells; a `*Project` is the
  position of its cell in that list (every entry is a fresh allocation of
  `newProject`, and the slice is never reassigned after load).
* The Go map `defaultProjectMap` is represented by its lookup function.
* A run-time panic (index out of range, nil dereference) is the outer `none` of
  an `Option` result.
* The remote services are parameters: `GitHubClient` carries the answers of the
  source-control API, `Providers` the values delivered by the package and CI
  providers, whose code and record types are declared outside the two files and
  are therefore type parameters `G` (for `RubyGem`) and `T` (for `TravisReport`).
* The only arithmetic is the subtraction of two counts in `github`; it is taken in `Int`
  without wrap-around.
* Reading and parsing the configuration file happen before the modelled part of
  `allProjects`, which starts from the parsed `Repos` value.
* `getAllProjects` runs one `fetch` per registry cell; the cells are distinct
  allocations, so the joined result is the cell-wise result of the fetches.
* Logging has no effect on the modelled state and is omitted.
-/

set_option linter.dupNamespace false

namespace Dashboard

/-! ## `strings.Split` with a one-character separator -/

/-- Pieces of a character list between occurrences of `sep`; always at least one piece. -/
def splitChars (sep : Char) : List Char → List (List Char)
  | [] => [[]]
  | c :: cs =>
    if c = sep then [] :: splitChars sep cs
    else
      match splitChars sep cs with
      | [] => [[c]]
      | w :: ws => (c :: w) :: ws

/-- The call `strings.Split(s, "/")` of the sources, for a separator of one character. -/
def strings.Split (s : String) (sep : Char) : List String :=
  (splitChars sep s.data).map String.mk

/-! ## github.go -/

/-- The record `GitHub` of github.go. -/
structure GitHub where
  CommitsThisWeek : Int
  OpenPRs : Int
  OpenIssues : Int
  CommitsSinceLatestRelease : Int
  LatestReleaseTag : String
deriving DecidableEq, Repr

/-- Answers of the source-control API as seen through a non-nil `githubClient`.
Each call yields its payload or an error text; `ListByOrg` yields the full names of the
listed repositories together with an optional error, since `allRepos` ranges over the
listing whatever the error. `Stringify` is the library function `gh.Stringify`, whose
code is not part of the repository; the general theorems hold for every such function. Pointer fields of successful answers are taken to
be non-nil. -/
structure GitHubClient where
  ListByOrg : String → List String × Option String
  Stringify : String → String
  Get : String → String → Except String Int
  SearchIssues : String → Except String Int
  ListCommitActivity : String → String → Except String (List Int)
  GetLatestRelease : String → String → Except String String
  CompareCommits : String → String → String → String → Except String Int

/-- Function `allRepos`: `none` is the nil dereference of a missing client. -/
def allRepos (githubClient : Option GitHubClient) (org : String) : Option (List String) :=
  match githubClient with
  | none => none
  | some c =>
    let (repos, _) := c.ListByOrg org
    some (repos.map c.Stringify)

/-- Function `openIssues`. -/
def openIssues (c : GitHubClient) (owner repo : String) : Int :=
  match c.Get owner repo with
  | .error _ => -1
  | .ok openIssuesCount => openIssuesCount

/-- Function `openPRs`. -/
def openPRs (c : GitHubClient) (nwo : String) : Int :=
  match c.SearchIssues ("state:open type:pr repo:" ++ nwo) with
  | .error _ => -1
  | .ok total => total

/-- Function `commitsThisWeek`: the total of the last weekly activity. -/
def commitsThisWeek (c : GitHubClient) (owner repo : String) : Int :=
  match c.ListCommitActivity owner repo with
  | .error _ => -1
  | .ok activities =>
    match activities.getLast? with
    | none => -1
    | some total => total

/-- Function `commitsSinceLatestRelease`. -/
def commitsSinceLatestRelease (c : GitHubClient) (owner repo : String) : Int × String :=
  match c.GetLatestRelease owner repo with
  | .error _ => (-1, "")
  | .ok tagName =>
    match c.CompareCommits owner repo tagName "master" with
    | .error _ => (-1, tagName)
    | .ok totalCommits => (totalCommits, tagName)

/-- Function `github`: the value sent on the channel (`some none` is a nil record);
the outer `none` is the index-out-of-range panic of `pieces[1]`. -/
def github (githubClient : Option GitHubClient) (nwo : String) : Option (Option GitHub) :=
  match githubClient with
  | none => some none
  | some c =>
    if nwo = "" then some none
    else
      let pieces := strings.Split nwo '/'
      match pieces[0]?, pieces[1]? with
      | some owner, some repo =>
        let (commits, tag) := commitsSinceLatestRelease c owner repo
        let openIssueAndPRCount := openIssues c owner repo
        let openPRCount := openPRs c nwo
        some (some
          { CommitsThisWeek := commitsThisWeek c owner repo
            OpenPRs := openPRCount
            OpenIssues := openIssueAndPRCount - openPRCount
            CommitsSinceLatestRelease := commits
            LatestReleaseTag := tag })
      | _, _ => none

/-! ## project.go -/

/-- The parsed configuration `Repos`. -/
structure Repos where
  Orgs : List String
  Repos : List String
  Exclude : List String
deriving DecidableEq, Repr

/-- The record `Project`; `G` and `T` stand for `RubyGem` and `TravisReport`. -/
structure Project (G T : Type) where
  Name : String
  Nwo : String
  Branch : String
  GemName : String
  Gem : Option G
  Travis : Option T
  GitHub : Option GitHub
  fetched : Bool
deriving DecidableEq, Repr

/-- What the three providers deliver: `rubygem` and `travis` are the values received
from the channels of the functions of the same names (declared outside the two files),
`githubClient` is the global of github.go. -/
structure Providers (G T : Type) where
  rubygem : String → Option G
  travis : String → String → Option T
  githubClient : Option GitHubClient

/-- Function `newProject`. -/
def newProject {G T : Type} (name nwo branch rubygem : String) : Project G T :=
  { Name := name, Nwo := nwo, Branch := branch, GemName := rubygem,
    Gem := none, Travis := none, GitHub := none, fetched := false }

/-- The loop `for _, orgRepo := range ... { repo := strings.Split(orgRepo, "/")[1]; append }`
of `allProjects`, continuing from `returnValue`; `none` when `[1]` is out of range. -/
def appendProjects {G T : Type} (returnValue : List (Project G T)) :
    List String → Option (List (Project G T))
  | [] => some returnValue
  | orgRepo :: rest =>
    match (strings.Split orgRepo '/')[1]? with
    | none => none
    | some repo => appendProjects (returnValue ++ [newProject repo orgRepo "master" repo]) rest

/-- The loop `for _, org := range r.Orgs` of `allProjects`. -/
def expandOrgs {G T : Type} (githubClient : Option GitHubClient)
    (returnValue : List (Project G T)) : List String → Option (List (Project G T))
  | [] => some returnValue
  | org :: rest =>
    match allRepos githubClient org with
    | none => none
    | some x =>
      match appendProjects returnValue x with
      | none => none
      | some returnValue' => expandOrgs githubClient returnValue' rest

/-- Function `allProjects`, from the parsed configuration on. -/
def allProjects {G T : Type} (githubClient : Option GitHubClient) (r : Repos) :
    Option (List (Project G T)) :=
  match appendProjects [] r.Repos with
  | none => none
  | some returnValue => expandOrgs githubClient returnValue r.Orgs

/-- Method `Project.fetch`; `none` when the `github` goroutine panics. -/
def Project.fetch {G T : Type} (env : Providers G T) (p : Project G T) : Option (Project G T) :=
  let rubyGemChan := env.rubygem p.GemName
  let travisChan := env.travis p.Nwo p.Branch
  match github env.githubClient p.Nwo with
  | none => none
  | some githubChan =>
    let p := if p.Gem.isNone then { p with Gem := rubyGemChan } else p
    let p := if p.Travis.isNone then { p with Travis := travisChan } else p
    let p := if p.GitHub.isNone then { p with GitHub := githubChan } else p
    some { p with fetched := true }

/-- Method `Project.reset`. -/
def Project.reset {G T : Type} (p : Project G T) : Project G T :=
  { p with fetched := false, Gem := none, Travis := none, GitHub := none }

/-- A Go `map[string]*Project`, by its lookup. -/
abbrev ProjectMap := String → Option Nat

/-- Assignment `m[k] = v`. -/
def ProjectMap.insert (m : ProjectMap) (k : String) (v : Nat) : ProjectMap :=
  fun k' => if k' = k then some v else m k'

/-- The globals `defaultProjects` and `defaultProjectMap` (`none` is the nil map). -/
structure State (G T : Type) where
  defaultProjects : List (Project G T)
  defaultProjectMap : Option ProjectMap

/-- The loop of `buildProjectMap` over the registry cells from position `i` on. -/
def indexProjects {G T : Type} : Nat → List (Project G T) → ProjectMap → ProjectMap
  | _, [], m => m
  | i, p :: ps, m => indexProjects (i + 1) ps (m.insert p.Name i)

/-- Function `buildProjectMap`. -/
def buildProjectMap {G T : Type} (s : State G T) : State G T :=
  { s with defaultProjectMap := some (indexProjects 0 s.defaultProjects (fun _ => none)) }

/-- Function `resetProjects`. -/
def resetProjects {G T : Type} (s : State G T) : State G T :=
  { s with defaultProjects := s.defaultProjects.map Project.reset }

/-- Function `getProject`: the returned pointer (`none` is nil) and the state after the
call; the outer `none` is a panic inside `fetch`, or a map entry that points outside the
registry (which `buildProjectMap` never stores). -/
def getProject {G T : Type} (env : Providers G T) (name : String) (s : State G T) :
    Option (Option Nat × State G T) :=
  let s := if s.defaultProjectMap.isNone then buildProjectMap s else s
  match s.defaultProjectMap with
  | none => none
  | some m =>
    match m name with
    | none => some (none, s)
    | some i =>
      match s.defaultProjects[i]? with
      | none => none
      | some p =>
        if !p.fetched then
          match p.fetch env with
          | none => none
          | some p' => some (some i, { s with defaultProjects := s.defaultProjects.set i p' })
        else some (some i, s)

/-- The fetches of `getAllProjects`, one per registry cell, joined. -/
def fetchAll {G T : Type} (env : Providers G T) : List (Project G T) → Option (List (Project G T))
  | [] => some []
  | p :: ps =>
    match p.fetch env, fetchAll env ps with
    | some p', some ps' => some (p' :: ps')
    | _, _ => none

/-- Function `getAllProjects`: the state after the barrier (the returned slice is the
registry itself). -/
def getAllProjects {G T : Type} (env : Providers G T) (s : State G T) : Option (State G T) :=
  match fetchAll env s.defaultProjects with
  | none => none
  | some ps => some { s with defaultProjects := ps }

/-- Function `getProjects`. -/
def getProjects {G T : Type} (s : State G T) : List (Project G T) := s.defaultProjects

/-! ## Predicates used in the statements -/

/-- Cell `i` of the registry is the last one whose project has the name `name`. -/
def LastNamed {G T : Type} (ps : List (Project G T)) (name : String) (i : Nat) : Prop :=
  ∃ p, ps[i]? = some p ∧ p.Name = name ∧
    ∀ (j : Nat) (q : Project G T), i < j → ps[j]? = some q → q.Name ≠ name

/-- The name index is either not built yet or the one `buildProjectMap` builds from the
registry (the only assignment to `defaultProjectMap` in the sources). -/
def State.Indexed {G T : Type} (s : State G T) : Prop :=
  s.defaultProjectMap = none ∨
    s.defaultProjectMap = some (indexProjects 0 s.defaultProjects (fun _ => none))

/-! ## Start-up and the library rendering of names -/

/-- The package-level initializer of `defaultProjects`, the one call of `allProjects`:
package variables are initialized before any `init` function runs, so `githubClient`
is still nil during this call. -/
def defaultProjectsInit {G T : Type} (r : Repos) : Option (List (Project G T)) :=
  allProjects none r

/-- The library function `gh.Stringify` applied to a string value: the value between
double quotes. The concrete clients below carry it in their `Stringify` field. -/
def gh.Stringify (s : String) : String :=
  "\x22" ++ s ++ "\x22"

/-! ## Concrete inputs used by the evaluated examples -/

/-- A client whose repository-metadata call and ref comparison fail while the other
calls succeed; the service lists the full names acme/widget and acme/gadget for the
organization acme. -/
def sampleClient : GitHubClient :=
  { ListByOrg := fun org =>
      if org = "acme" then (["acme/widget", "acme/gadget"], none) else ([], some "not found")
    Stringify := gh.Stringify
    Get := fun _ _ => .error "down"
    SearchIssues := fun _ => .ok 3
    ListCommitActivity := fun _ _ => .ok [1, 2, 7]
    GetLatestRelease := fun _ _ => .ok "v1.0"
    CompareCommits := fun _ _ _ _ => .error "boom" }

/-- A client all of whose calls succeed; the service lists the full names acme/widget
and acme/gadget for the organization acme. -/
def healthyClient : GitHubClient :=
  { ListByOrg := fun org =>
      if org = "acme" then (["acme/widget", "acme/gadget"], none) else ([], none)
    Stringify := gh.Stringify
    Get := fun _ _ => .ok 5
    SearchIssues := fun _ => .ok 2
    ListCommitActivity := fun _ _ => .ok [4, 9]
    GetLatestRelease := fun _ _ => .ok "v2.1"
    CompareCommits := fun _ _ _ _ => .ok 12 }

/-- Providers with no credential for the source-control service (`githubClient` nil);
the package and CI providers deliver a record. -/
def providersOff : Providers String String :=
  { rubygem := fun gem => some ("gem " ++ gem)
    travis := fun nwo branch => some ("build " ++ nwo ++ "@" ++ branch)
    githubClient := none }

/-- Providers with a working source-control client. -/
def providersOn : Providers String String :=
  { rubygem := fun gem => some ("gem " ++ gem)
    travis := fun nwo branch => some ("build " ++ nwo ++ "@" ++ branch)
    githubClient := some healthyClient }

/-- The registry loaded from `repos: ["acme/widget"]`, name index not yet built. -/
def widgetRegistry : State String String :=
  { defaultProjects := [newProject "widget" "acme/widget" "master" "widget"]
    defaultProjectMap := none }

/-- A registry in which the name widget occurs twice (cells 0 and 2). -/
def twinRegistry : State String String :=
  { defaultProjects :=
      [newProject "widget" "acme/widget" "master" "widget",
       newProject "gadget" "acme/gadget" "master" "gadget",
       newProject "widget" "other/widget" "master" "widget"]
    defaultProjectMap := none }

/-- A record whose package slot is still filled while the other two slots are empty. -/
def halfFilled : Project String String :=
  { Name := "widget", Nwo := "acme/widget", Branch := "master", GemName := "widget",
    Gem := some "kept gem", Travis := none, GitHub := none, fetched := false }

/-- A configuration whose explicit entry acme/widget is also a repository of its
organization acme. -/
def overlappingConfig : Repos :=
  { Orgs := ["acme"], Repos := ["acme/widget"], Exclude := [] }

/-! ## Splitting -/

theorem splitChars_ne_nil (sep : Char) (l : List Char) : splitChars sep l ≠ [] := by
  induction l with
  | nil => simp [splitChars]
  | cons c cs ih =>
    unfold splitChars
    split
    · simp
    · split <;> simp

theorem splitChars_of_not_mem (sep : Char) (l : List Char) (h : sep ∉ l) :
    splitChars sep l = [l] := by
  induction l with
  | nil => rfl
  | cons c cs ih =>
    have hc : c ≠ sep := fun e => h (by simp [e])
    have hcs : sep ∉ cs := fun e => h (by simp [e])
    simp [splitChars, hc, ih hcs]

theorem splitChars_append (sep : Char) (a b : List Char) (h : sep ∉ a) :
    splitChars sep (a ++ sep :: b) = a :: splitChars sep b := by
  induction a with
  | nil => simp [splitChars]
  | cons c cs ih =>
    have hc : c ≠ sep := fun e => h (by simp [e])
    have hcs : sep ∉ cs := fun e => h (by simp [e])
    simp [splitChars, hc, ih hcs]

theorem splitChars_head (sep : Char) (l : List Char) : ∃ w, (splitChars sep l)[0]? = some w := by
  cases h : splitChars sep l with
  | nil => exact absurd h (splitChars_ne_nil sep l)
  | cons w ws => exact ⟨w, by simp⟩

theorem splitChars_second_eq_none (sep : Char) (l : List Char) :
    (splitChars sep l)[1]? = none ↔ sep ∉ l := by
  induction l with
  | nil => simp [splitChars]
  | cons c cs ih =>
    unfold splitChars
    by_cases hc : c = sep
    · subst hc
      have := splitChars_ne_nil c cs
      cases h : splitChars c cs with
      | nil => exact absurd h this
      | cons w ws => simp
    · have hne : splitChars sep cs ≠ [] := splitChars_ne_nil sep cs
      cases h : splitChars sep cs with
      | nil => exact absurd h hne
      | cons w ws =>
        rw [h] at ih
        simp only [hc, if_false]
        have : ¬ sep = c := fun e => hc e.symm
        simpa [this] using ih

theorem Split_owner_repo (owner repo : String) (ho : '/' ∉ owner.data) (hr : '/' ∉ repo.data) :
    strings.Split (owner ++ "/" ++ repo) '/' = [owner, repo] := by
  have : (owner ++ "/" ++ repo).data = owner.data ++ '/' :: repo.data := by
    simp [String.data_append]
  simp [strings.Split, this, splitChars_append _ _ _ ho, splitChars_of_not_mem _ _ hr]

theorem Split_second_eq_none (s : String) : (strings.Split s '/')[1]? = none ↔ '/' ∉ s.data := by
  unfold strings.Split
  rw [List.getElem?_map, Option.map_eq_none']
  exact splitChars_second_eq_none _ _

theorem Split_head (s : String) : ∃ w, (strings.Split s '/')[0]? = some w := by
  obtain ⟨w, hw⟩ := splitChars_head '/' s.data
  exact ⟨String.mk w, by simp [strings.Split, hw]⟩

/-! ## The source-control record -/

theorem github_eq_none_iff (githubClient : Option GitHubClient) (nwo : String) :
    github githubClient nwo = none ↔ githubClient ≠ none ∧ nwo ≠ "" ∧ '/' ∉ nwo.data := by
  cases githubClient with
  | none => simp [github]
  | some c =>
    by_cases hn : nwo = ""
    · simp [github, hn]
    · obtain ⟨w, hw⟩ := Split_head nwo
      cases h1 : (strings.Split nwo '/')[1]? with
      | none =>
        have := (Split_second_eq_none nwo).1 h1
        simp [github, hn, hw, h1, this]
      | some repo =>
        have : ¬ '/' ∉ nwo.data := fun h => by
          rw [(Split_second_eq_none nwo).2 h] at h1
          exact Option.noConfusion h1
        simp [github, hn, hw, h1, this]

theorem github_owner_repo (c : GitHubClient) (owner repo : String)
    (ho : '/' ∉ owner.data) (hr : '/' ∉ repo.data) :
    github (some c) (owner ++ "/" ++ repo) = some (some
      { CommitsThisWeek := commitsThisWeek c owner repo
        OpenPRs := openPRs c (owner ++ "/" ++ repo)
        OpenIssues := openIssues c owner repo - openPRs c (owner ++ "/" ++ repo)
        CommitsSinceLatestRelease := (commitsSinceLatestRelease c owner repo).1
        LatestReleaseTag := (commitsSinceLatestRelease c owner repo).2 }) := by
  have hne : owner ++ "/" ++ repo ≠ "" := by
    intro h
    have := congrArg String.data h
    simp [String.data_append] at this
  simp [github, hne, Split_owner_repo owner repo ho hr]

/-- The three integer fields that `github` copies unchanged from their helper carry the
sentinel -1 when that helper's call fails, whatever the other calls return. -/
theorem github_copied_fields_sentinel (c : GitHubClient) (owner repo : String)
    (ho : '/' ∉ owner.data) (hr : '/' ∉ repo.data) :
    ∃ g, github (some c) (owner ++ "/" ++ repo) = some (some g) ∧
      ((∀ e, c.ListCommitActivity owner repo = .error e → g.CommitsThisWeek = -1) ∧
       (c.ListCommitActivity owner repo = .ok [] → g.CommitsThisWeek = -1) ∧
       (∀ e, c.SearchIssues ("state:open type:pr repo:" ++ (owner ++ "/" ++ repo)) = .error e →
          g.OpenPRs = -1) ∧
       (∀ e, c.GetLatestRelease owner repo = .error e → g.CommitsSinceLatestRelease = -1) ∧
       (∀ tag e, c.GetLatestRelease owner repo = .ok tag →
          c.CompareCommits owner repo tag "master" = .error e →
          g.CommitsSinceLatestRelease = -1) ∧
       g.OpenIssues = openIssues c owner repo - g.OpenPRs) := by
  refine ⟨_, github_owner_repo c owner repo ho hr, ?_, ?_, ?_, ?_, ?_, rfl⟩
  · intro e h; simp [commitsThisWeek, h]
  · intro h; simp [commitsThisWeek, h]
  · intro e h; simp [openPRs, h]
  · intro e h; simp [commitsSinceLatestRelease, h]
  · intro tag e h1 h2; simp [commitsSinceLatestRelease, h1, h2]

/-- C8: with the client available, the repository-metadata call failing and the
pull-request search reporting 3 open pull requests, `github` builds a record whose
open_issues is -4 (the sentinel -1 of `openIssues` minus the pull-request count), not
the sentinel -1. -/
theorem github_open_issues_misses_sentinel :
    sampleClient.Get "acme" "widget" = .error "down" ∧
    openIssues sampleClient "acme" "widget" = -1 ∧
    openPRs sampleClient "acme/widget" = 3 ∧
    ∃ g, github (some sampleClient) "acme/widget" = some (some g) ∧
      g.OpenIssues = -4 ∧ g.OpenIssues ≠ -1 ∧
      g = { CommitsThisWeek := 7, OpenPRs := 3, OpenIssues := -4,
            CommitsSinceLatestRelease := -1, LatestReleaseTag := "v1.0" } := by
  refine ⟨rfl, by decide, by decide, _, by decide, rfl, by decide, rfl⟩

/-- C9 as stated fails: the latest-release lookup answers tag v1.0, the comparison
fails, and `commitsSinceLatestRelease` returns count -1 with the tag v1.0, not with
the empty string. -/
theorem commitsSinceLatestRelease_keeps_tag_on_compare_error :
    sampleClient.GetLatestRelease "acme" "widget" = .ok "v1.0" ∧
    sampleClient.CompareCommits "acme" "widget" "v1.0" "master" = .error "boom" ∧
    commitsSinceLatestRelease sampleClient "acme" "widget" = (-1, "v1.0") ∧
    commitsSinceLatestRelease sampleClient "acme" "widget" ≠ (-1, "") := by
  refine ⟨rfl, rfl, by decide, by decide⟩

/-- C9 (amended): `commitsSinceLatestRelease` returns count -1 and the empty tag when
the latest-release lookup fails; count -1 and the looked-up tag name when the lookup
succeeds and the comparison of that tag with master fails; the comparison's total
commit count and the tag name when both calls succeed. -/
theorem commitsSinceLatestRelease_cases (c : GitHubClient) (owner repo : String) :
    (∀ e, c.GetLatestRelease owner repo = .error e →
      commitsSinceLatestRelease c owner repo = (-1, "")) ∧
    (∀ tag e, c.GetLatestRelease owner repo = .ok tag →
      c.CompareCommits owner repo tag "master" = .error e →
      commitsSinceLatestRelease c owner repo = (-1, tag)) ∧
    (∀ tag n, c.GetLatestRelease owner repo = .ok tag →
      c.CompareCommits owner repo tag "master" = .ok n →
      commitsSinceLatestRelease c owner repo = (n, tag)) := by
  refine ⟨?_, ?_, ?_⟩
  · intro e h; simp [commitsSinceLatestRelease, h]
  · intro tag e h1 h2; simp [commitsSinceLatestRelease, h1, h2]
  · intro tag n h1 h2; simp [commitsSinceLatestRelease, h1, h2]

/-- The three cases of C9 (amended) at concrete clients. -/
theorem commitsSinceLatestRelease_cases_witness :
    commitsSinceLatestRelease sampleClient "acme" "widget" = (-1, "v1.0") ∧
    commitsSinceLatestRelease healthyClient "acme" "widget" = (12, "v2.1") :=
  ⟨(commitsSinceLatestRelease_cases sampleClient "acme" "widget").2.1 "v1.0" "boom" rfl rfl,
   (commitsSinceLatestRelease_cases healthyClient "acme" "widget").2.2 "v2.1" 12 rfl rfl⟩

/-! ## Fetch and reset of one record -/

theorem fetch_of_github {G T : Type} (env : Providers G T) (p : Project G T)
    (g : Option GitHub) (h : github env.githubClient p.Nwo = some g) :
    p.fetch env = some
      { Name := p.Name, Nwo := p.Nwo, Branch := p.Branch, GemName := p.GemName
        Gem := if p.Gem.isNone then env.rubygem p.GemName else p.Gem
        Travis := if p.Travis.isNone then env.travis p.Nwo p.Branch else p.Travis
        GitHub := if p.GitHub.isNone then g else p.GitHub
        fetched := true } := by
  obtain ⟨n, w, b, gn, gem, tr, gh, f⟩ := p
  simp only [Project.fetch] at h ⊢
  rw [h]
  cases gem <;> cases tr <;> cases gh <;> simp

theorem fetch_eq_none_iff {G T : Type} (env : Providers G T) (p : Project G T) :
    p.fetch env = none ↔ github env.githubClient p.Nwo = none := by
  cases h : github env.githubClient p.Nwo with
  | none => simp [Project.fetch, h]
  | some g => simp [fetch_of_github env p g h]

/-- C4: when the source-control provider delivers `g`, `fetch` returns; every slot that
was non-empty is as before, every slot that was empty holds what its own provider
delivered, fetched is true, and name, nwo, branch and gem_name are unchanged; on a
fully populated record only the fetched flag changes. -/
theorem fetch_fills_only_empty_slots {G T : Type} (env : Providers G T) (p : Project G T)
    (g : Option GitHub) (h : github env.githubClient p.Nwo = some g) :
    ∃ p', p.fetch env = some p' ∧
      (p.Gem ≠ none → p'.Gem = p.Gem) ∧
      (p.Gem = none → p'.Gem = env.rubygem p.GemName) ∧
      (p.Travis ≠ none → p'.Travis = p.Travis) ∧
      (p.Travis = none → p'.Travis = env.travis p.Nwo p.Branch) ∧
      (p.GitHub ≠ none → p'.GitHub = p.GitHub) ∧
      (p.GitHub = none → p'.GitHub = g) ∧
      p'.fetched = true ∧
      p'.Name = p.Name ∧ p'.Nwo = p.Nwo ∧ p'.Branch = p.Branch ∧ p'.GemName = p.GemName ∧
      (p.Gem ≠ none → p.Travis ≠ none → p.GitHub ≠ none → p' = { p with fetched := true }) := by
  refine ⟨_, fetch_of_github env p g h, ?_⟩
  obtain ⟨n, w, b, gn, gem, tr, gh, f⟩ := p
  cases gem <;> cases tr <;> cases gh <;> simp

/-- C4 at a record whose package slot is filled: the slot is kept, the two empty slots
receive the delivered values. -/
theorem fetch_fills_only_empty_slots_witness :
    ∃ p', halfFilled.fetch providersOn = some p' ∧
      p'.Gem = some "kept gem" ∧
      p'.Travis = some "build acme/widget@master" ∧
      p'.GitHub = some
        { CommitsThisWeek := 9, OpenPRs := 2, OpenIssues := 3,
          CommitsSinceLatestRelease := 12, LatestReleaseTag := "v2.1" } ∧
      p'.fetched = true := by
  obtain ⟨p', h, hg, _, _, ht, _, hgh, hf, _⟩ :=
    fetch_fills_only_empty_slots providersOn halfFilled
      (some { CommitsThisWeek := 9, OpenPRs := 2, OpenIssues := 3,
              CommitsSinceLatestRelease := 12, LatestReleaseTag := "v2.1" }) (by decide)
  exact ⟨p', h, hg (by decide), ht rfl, hgh rfl, hf⟩

/-- C5: `resetProjects`, which takes no provider, keeps the registry's length, order and
name index, keeps every project's name, nwo, branch and gem_name, leaves every project
with three empty slots and fetched = false, and is idempotent. -/
theorem resetProjects_clears_all {G T : Type} (s : State G T) :
    (resetProjects s).defaultProjects.length = s.defaultProjects.length ∧
    (resetProjects s).defaultProjectMap = s.defaultProjectMap ∧
    (∀ (i : Nat) (p : Project G T), s.defaultProjects[i]? = some p →
      (resetProjects s).defaultProjects[i]? = some
        ({ Name := p.Name, Nwo := p.Nwo, Branch := p.Branch, GemName := p.GemName
           Gem := none, Travis := none, GitHub := none, fetched := false } : Project G T)) ∧
    (∀ p ∈ (resetProjects s).defaultProjects,
      p.Gem = none ∧ p.Travis = none ∧ p.GitHub = none ∧ p.fetched = false) ∧
    resetProjects (resetProjects s) = resetProjects s := by
  refine ⟨by simp [resetProjects], rfl, ?_, ?_, ?_⟩
  · intro i p h
    simp [resetProjects, List.getElem?_map, h, Project.reset]
  · intro p hp
    simp only [resetProjects, List.mem_map] at hp
    obtain ⟨q, _, rfl⟩ := hp
    simp [Project.reset]
  · simp [resetProjects, Project.reset, Function.comp_def]

/-! ## The name index -/

theorem indexProjects_spec {G T : Type} (ps : List (Project G T)) (i : Nat) (m : ProjectMap)
    (name : String) :
    ((∀ p ∈ ps, p.Name ≠ name) ∧ indexProjects i ps m name = m name) ∨
    (∃ j, LastNamed ps name j ∧ indexProjects i ps m name = some (i + j)) := by
  induction ps generalizing i m with
  | nil => exact Or.inl ⟨by simp, rfl⟩
  | cons p0 rest ih =>
    rcases ih (i + 1) (m.insert p0.Name i) with ⟨hno, hlook⟩ | ⟨j, ⟨p, hp, hname, hlast⟩, hlook⟩
    · by_cases h0 : p0.Name = name
      · refine Or.inr ⟨0, ⟨p0, by simp, h0, ?_⟩, ?_⟩
        · intro j q hj hq
          obtain ⟨k, rfl⟩ : ∃ k, j = k + 1 := ⟨j - 1, by omega⟩
          simp only [List.getElem?_cons_succ] at hq
          exact hno q (List.getElem?_mem hq)
        · rw [indexProjects, hlook]
          simp [ProjectMap.insert, h0]
      · refine Or.inl ⟨?_, ?_⟩
        · intro p hp
          rcases List.mem_cons.1 hp with rfl | hp
          · exact h0
          · exact hno p hp
        · have : ¬ name = p0.Name := fun e => h0 e.symm
          rw [indexProjects, hlook]
          simp [ProjectMap.insert, this]
    · refine Or.inr ⟨j + 1, ⟨p, by simpa using hp, hname, ?_⟩, ?_⟩
      · intro k q hk hq
        obtain ⟨k', rfl⟩ : ∃ k', k = k' + 1 := ⟨k - 1, by omega⟩
        simp only [List.getElem?_cons_succ] at hq
        exact hlast k' q (by omega) hq
      · simp only [indexProjects, hlook]
        congr 1
        omega

theorem LastNamed_unique {G T : Type} {ps : List (Project G T)} {name : String} {i j : Nat}
    (hi : LastNamed ps name i) (hj : LastNamed ps name j) : i = j := by
  obtain ⟨p, hp, hpn, hpl⟩ := hi
  obtain ⟨q, hq, hqn, hql⟩ := hj
  rcases Nat.lt_trichotomy i j with h | h | h
  · exact absurd hqn (hpl j q h hq)
  · exact h
  · exact absurd hpn (hql i p h hp)

theorem LastNamed_mem {G T : Type} {ps : List (Project G T)} {name : String} {i : Nat}
    (hi : LastNamed ps name i) : ∃ p ∈ ps, p.Name = name := by
  obtain ⟨p, hp, hpn, _⟩ := hi
  exact ⟨p, List.getElem?_mem hp, hpn⟩

theorem index_of_lastNamed {G T : Type} {ps : List (Project G T)} {name : String} {i : Nat}
    (hi : LastNamed ps name i) : indexProjects 0 ps (fun _ => none) name = some i := by
  rcases indexProjects_spec ps 0 (fun _ => none) name with ⟨hno, _⟩ | ⟨j, hj, hlook⟩
  · obtain ⟨p, hp, hpn⟩ := LastNamed_mem hi
    exact absurd hpn (hno p hp)
  · rw [hlook, LastNamed_unique hi hj]; simp

theorem index_eq_some {G T : Type} {ps : List (Project G T)} {name : String} {i : Nat}
    (h : indexProjects 0 ps (fun _ => none) name = some i) : LastNamed ps name i := by
  rcases indexProjects_spec ps 0 (fun _ => none) name with ⟨_, hlook⟩ | ⟨j, hj, hlook⟩
  · rw [hlook] at h; exact Option.noConfusion h
  · rw [hlook] at h
    have : j = i := by simpa using h
    exact this ▸ hj

theorem index_of_unknown {G T : Type} {ps : List (Project G T)} {name : String}
    (h : ∀ p ∈ ps, p.Name ≠ name) : indexProjects 0 ps (fun _ => none) name = none := by
  rcases indexProjects_spec ps 0 (fun _ => none) name with ⟨_, hlook⟩ | ⟨j, hj, _⟩
  · exact hlook
  · obtain ⟨p, hp, hpn⟩ := LastNamed_mem hj
    exact absurd hpn (h p hp)

theorem exists_lastNamed {G T : Type} {ps : List (Project G T)} {name : String}
    (h : ∃ p ∈ ps, p.Name = name) : ∃ i, LastNamed ps name i := by
  rcases indexProjects_spec ps 0 (fun _ => none) name with ⟨hno, _⟩ | ⟨j, hj, _⟩
  · obtain ⟨p, hp, hpn⟩ := h
    exact absurd hpn (hno p hp)
  · exact ⟨j, hj⟩

theorem indexProjects_congr {G T : Type} (ps qs : List (Project G T))
    (h : ps.map (fun p => p.Name) = qs.map (fun p => p.Name)) (i : Nat) (m : ProjectMap) :
    indexProjects i ps m = indexProjects i qs m := by
  induction ps generalizing qs i m with
  | nil =>
    cases qs with
    | nil => rfl
    | cons q qs => simp at h
  | cons p ps ih =>
    cases qs with
    | nil => simp at h
    | cons q qs =>
      simp only [List.map_cons, List.cons.injEq] at h
      simp only [indexProjects, h.1]
      exact ih qs h.2 _ _

/-! ## Lookup by name -/

theorem getProject_eq {G T : Type} (env : Providers G T) (name : String) (s : State G T)
    (hs : s.Indexed) :
    getProject env name s =
      match indexProjects 0 s.defaultProjects (fun _ => none) name with
      | none => some (none,
          { defaultProjects := s.defaultProjects
            defaultProjectMap := some (indexProjects 0 s.defaultProjects (fun _ => none)) })
      | some i =>
        match s.defaultProjects[i]? with
        | none => none
        | some p =>
          if p.fetched then some (some i,
            { defaultProjects := s.defaultProjects
              defaultProjectMap := some (indexProjects 0 s.defaultProjects (fun _ => none)) })
          else
            match p.fetch env with
            | none => none
            | some p' => some (some i,
                { defaultProjects := s.defaultProjects.set i p'
                  defaultProjectMap :=
                    some (indexProjects 0 s.defaultProjects (fun _ => none)) }) := by
  obtain ⟨ps, m⟩ := s
  rcases hs with h | h <;> simp only at h <;> subst h
  all_goals
    simp only [getProject, buildProjectMap, Option.isNone_none, Option.isNone_some, if_true,
      Bool.false_eq_true, if_false]
    cases h1 : indexProjects 0 ps (fun _ => none) name with
    | none => simp
    | some i =>
      simp only []
      cases h2 : ps[i]? with
      | none => simp
      | some p => cases hf : p.fetched <;> simp [hf]

theorem getProject_found {G T : Type} (env : Providers G T) (name : String) (s : State G T)
    (hs : s.Indexed) (i : Nat) (p : Project G T) (g : Option GitHub)
    (hi : LastNamed s.defaultProjects name i) (hp : s.defaultProjects[i]? = some p)
    (hg : github env.githubClient p.Nwo = some g) :
    getProject env name s = some (some i,
      { defaultProjects :=
          if p.fetched then s.defaultProjects
          else s.defaultProjects.set i
            { Name := p.Name, Nwo := p.Nwo, Branch := p.Branch, GemName := p.GemName
              Gem := if p.Gem.isNone then env.rubygem p.GemName else p.Gem
              Travis := if p.Travis.isNone then env.travis p.Nwo p.Branch else p.Travis
              GitHub := if p.GitHub.isNone then g else p.GitHub
              fetched := true }
        defaultProjectMap := some (indexProjects 0 s.defaultProjects (fun _ => none)) }) := by
  rw [getProject_eq env name s hs, index_of_lastNamed hi]
  simp only [hp, fetch_of_github env p g hg]
  cases hf : p.fetched <;> simp

theorem Indexed_of_names {G T : Type} (s s' : State G T) (hs : s.Indexed)
    (hn : s'.defaultProjects.map (fun p => p.Name) = s.defaultProjects.map (fun p => p.Name))
    (hm : s'.defaultProjectMap = s.defaultProjectMap ∨
      s'.defaultProjectMap = some (indexProjects 0 s.defaultProjects (fun _ => none))) :
    s'.Indexed := by
  have hc := indexProjects_congr s'.defaultProjects s.defaultProjects hn 0 (fun _ => none)
  rcases hm with hm | hm
  · rcases hs with h | h
    · exact Or.inl (hm.trans h)
    · exact Or.inr (by rw [hm, h, hc])
  · exact Or.inr (by rw [hm, hc])

/-- The state invariant `Indexed` holds after `resetProjects`. -/
theorem Indexed_resetProjects {G T : Type} (s : State G T) (hs : s.Indexed) :
    (resetProjects s).Indexed := by
  refine Indexed_of_names s _ hs ?_ (Or.inl rfl)
  simp [resetProjects, Function.comp_def, Project.reset]

theorem fetch_keeps_name {G T : Type} (env : Providers G T) (p p' : Project G T)
    (h : p.fetch env = some p') : p'.Name = p.Name ∧ p'.fetched = true := by
  cases hg : github env.githubClient p.Nwo with
  | none => rw [(fetch_eq_none_iff env p).2 hg] at h; exact Option.noConfusion h
  | some g =>
    rw [fetch_of_github env p g hg] at h
    cases h
    exact ⟨rfl, rfl⟩

theorem set_keeps_names {G T : Type} (ps : List (Project G T)) (i : Nat) (p p' : Project G T)
    (hp : ps[i]? = some p) (hn : p'.Name = p.Name) :
    (ps.set i p').map (fun p => p.Name) = ps.map (fun p => p.Name) := by
  apply List.ext_getElem?
  intro j
  by_cases hij : i = j
  · subst hij
    have hlt : i < ps.length := by
      rcases Nat.lt_or_ge i ps.length with h | h
      · exact h
      · rw [List.getElem?_eq_none h] at hp; exact Option.noConfusion hp
    rw [List.getElem?_map, List.getElem?_map, List.getElem?_set_self hlt, hp]
    simp [hn]
  · rw [List.getElem?_map, List.getElem?_map, List.getElem?_set_ne hij]

theorem getProject_inv {G T : Type} (env : Providers G T) (name : String) (s s' : State G T)
    (r : Option Nat) (hs : s.Indexed) (h : getProject env name s = some (r, s')) :
    s'.defaultProjectMap = some (indexProjects 0 s.defaultProjects (fun _ => none)) ∧
    s'.defaultProjects.map (fun p => p.Name) = s.defaultProjects.map (fun p => p.Name) ∧
    ((r = none ∧ s'.defaultProjects = s.defaultProjects ∧
        indexProjects 0 s.defaultProjects (fun _ => none) name = none) ∨
     (∃ i q, r = some i ∧ LastNamed s.defaultProjects name i ∧
        s'.defaultProjects[i]? = some q ∧ q.Name = name ∧ q.fetched = true ∧
        ∀ j, j ≠ i → s'.defaultProjects[j]? = s.defaultProjects[j]?)) := by
  rw [getProject_eq env name s hs] at h
  cases h1 : indexProjects 0 s.defaultProjects (fun _ => none) name with
  | none =>
    rw [h1] at h
    simp only [Option.some.injEq, Prod.mk.injEq] at h
    obtain ⟨rfl, rfl⟩ := h
    exact ⟨rfl, rfl, Or.inl ⟨rfl, rfl, rfl⟩⟩
  | some i =>
    rw [h1] at h
    have hlast := index_eq_some h1
    obtain ⟨p, hp, hpn, _⟩ := id hlast
    simp only [hp] at h
    cases hf : p.fetched with
    | true =>
      simp only [hf, if_true, Option.some.injEq, Prod.mk.injEq] at h
      obtain ⟨rfl, rfl⟩ := h
      exact ⟨rfl, rfl, Or.inr ⟨i, p, rfl, hlast, hp, hpn, hf, fun _ _ => rfl⟩⟩
    | false =>
      simp only [hf, Bool.false_eq_true, if_false] at h
      cases hfe : p.fetch env with
      | none => rw [hfe] at h; exact Option.noConfusion h
      | some p' =>
        rw [hfe] at h
        simp only [Option.some.injEq, Prod.mk.injEq] at h
        obtain ⟨rfl, rfl⟩ := h
        obtain ⟨hn', hf'⟩ := fetch_keeps_name env p p' hfe
        have hlt : i < s.defaultProjects.length := by
          rcases Nat.lt_or_ge i s.defaultProjects.length with h | h
          · exact h
          · rw [List.getElem?_eq_none h] at hp; exact Option.noConfusion hp
        refine ⟨rfl, set_keeps_names _ i p p' hp hn', Or.inr ⟨i, p', rfl, hlast, ?_, hn'.trans hpn,
          hf', ?_⟩⟩
        · simp [List.getElem?_set_self hlt]
        · intro j hj
          simp [List.getElem?_set_ne (Ne.symm hj)]

/-- The state invariant `Indexed` holds after `getProject`. -/
theorem Indexed_getProject {G T : Type} (env : Providers G T) (name : String) (s s' : State G T)
    (r : Option Nat) (hs : s.Indexed) (h : getProject env name s = some (r, s')) :
    s'.Indexed := by
  obtain ⟨hm, hn, _⟩ := getProject_inv env name s s' r hs h
  exact Indexed_of_names s s' hs hn (Or.inr hm)

theorem getProject_returns {G T : Type} (env : Providers G T) (name : String) (s : State G T)
    (hs : s.Indexed) (hd : ∀ p ∈ s.defaultProjects, github env.githubClient p.Nwo ≠ none) :
    ∃ r s', getProject env name s = some (r, s') := by
  cases h1 : indexProjects 0 s.defaultProjects (fun _ => none) name with
  | none => exact ⟨none, _, by rw [getProject_eq env name s hs, h1]⟩
  | some i =>
    have hlast := index_eq_some h1
    obtain ⟨p, hp, _, _⟩ := id hlast
    cases hg : github env.githubClient p.Nwo with
    | none => exact absurd hg (hd p (List.getElem?_mem hp))
    | some g => exact ⟨some i, _, getProject_found env name s hs i p g hlast hp hg⟩

/-- C6 as stated fails: on a registry whose name index is not built yet, `getProject`
of an unknown name returns nil but leaves a state that differs from the one before,
the index having been built. -/
theorem getProject_unknown_builds_index :
    widgetRegistry.defaultProjectMap.isNone = true ∧
    ∃ s', getProject providersOff "unknown" widgetRegistry = some (none, s') ∧
      s'.defaultProjectMap.isSome = true ∧ s' ≠ widgetRegistry := by
  refine ⟨rfl, _, rfl, rfl, ?_⟩
  intro h
  have := congrArg (fun s => s.defaultProjectMap.isSome) h
  exact absurd this (by decide)

/-- C6 (amended): for a name borne by no registered project, `getProject` returns nil,
whatever the providers; the registry and every project record are as before, and the
name index is the one `buildProjectMap` builds, so the whole state is unchanged when
the index had already been built and only the index is assigned on the first access. -/
theorem getProject_unknown {G T : Type} (env : Providers G T) (s : State G T) (name : String)
    (hs : s.Indexed) (hn : ∀ p ∈ s.defaultProjects, p.Name ≠ name) :
    getProject env name s = some (none,
      { defaultProjects := s.defaultProjects
        defaultProjectMap := some (indexProjects 0 s.defaultProjects (fun _ => none)) }) ∧
    (s.defaultProjectMap ≠ none → getProject env name s = some (none, s)) := by
  have h : getProject env name s = some (none,
      { defaultProjects := s.defaultProjects
        defaultProjectMap := some (indexProjects 0 s.defaultProjects (fun _ => none)) }) := by
    rw [getProject_eq env name s hs, index_of_unknown hn]
  refine ⟨h, fun hne => ?_⟩
  rw [h]
  obtain ⟨ps, m⟩ := s
  rcases hs with hm | hm
  · exact absurd hm hne
  · simp only at hm
    rw [hm]

/-- C6 (amended) on the one-project registry, before and after the index is built. -/
theorem getProject_unknown_witness :
    getProject providersOn "unknown" widgetRegistry = some (none, buildProjectMap widgetRegistry) ∧
    getProject providersOn "unknown" (buildProjectMap widgetRegistry) =
      some (none, buildProjectMap widgetRegistry) :=
  ⟨(getProject_unknown providersOn widgetRegistry "unknown" (Or.inl rfl) (by decide)).1,
   (getProject_unknown providersOn (buildProjectMap widgetRegistry) "unknown" (Or.inr rfl)
      (by decide)).2 (by simp [buildProjectMap])⟩

/-- C7: in a state whose index is unbuilt or built from the registry and with no
panicking source-control goroutine, `getProject` of a registered name right after
`resetProjects` returns a non-nil project of that name with fetched = true whose three
slots hold what the providers delivered in that call; and whatever the state,
`getProject` returns, and a project it returns has fetched = true. -/
theorem getProject_after_reset_repopulates {G T : Type} (env : Providers G T) (s : State G T)
    (name : String) (hs : s.Indexed)
    (hd : ∀ p ∈ s.defaultProjects, github env.githubClient p.Nwo ≠ none) :
    ((∃ p ∈ s.defaultProjects, p.Name = name) →
      ∃ i p g s', getProject env name (resetProjects s) = some (some i, s') ∧
        s.defaultProjects[i]? = some p ∧ p.Name = name ∧
        github env.githubClient p.Nwo = some g ∧
        s'.defaultProjects[i]? = some
          { Name := name, Nwo := p.Nwo, Branch := p.Branch, GemName := p.GemName
            Gem := env.rubygem p.GemName
            Travis := env.travis p.Nwo p.Branch
            GitHub := g
            fetched := true }) ∧
    (∃ r s', getProject env name s = some (r, s') ∧
      ∀ k, r = some k → ∃ q, s'.defaultProjects[k]? = some q ∧ q.Name = name ∧
        q.fetched = true) := by
  constructor
  · rintro ⟨p0, hp0, hn0⟩
    have hs1 := Indexed_resetProjects s hs
    have hex : ∃ q ∈ (resetProjects s).defaultProjects, q.Name = name :=
      ⟨p0.reset, List.mem_map.2 ⟨p0, hp0, rfl⟩, hn0⟩
    obtain ⟨i, hi⟩ := exists_lastNamed hex
    obtain ⟨q, hq, hqn, _⟩ := id hi
    have hq' : (s.defaultProjects.map Project.reset)[i]? = some q := hq
    rw [List.getElem?_map] at hq'
    cases hp : s.defaultProjects[i]? with
    | none => rw [hp] at hq'; exact Option.noConfusion hq'
    | some p =>
      rw [hp] at hq'
      simp only [Option.map_some', Option.some.injEq] at hq'
      subst hq'
      cases hg : github env.githubClient p.Nwo with
      | none => exact absurd hg (hd p (List.getElem?_mem hp))
      | some g =>
        have hlt : i < (resetProjects s).defaultProjects.length := by
          rcases Nat.lt_or_ge i (resetProjects s).defaultProjects.length with h | h
          · exact h
          · rw [List.getElem?_eq_none h] at hq; exact Option.noConfusion hq
        refine ⟨i, p, g, _, getProject_found env name (resetProjects s) hs1 i p.reset g hi hq hg,
          hp, hqn, hg, ?_⟩
        have hname : p.Name = name := hqn
        simp [Project.reset, List.getElem?_set_self hlt, hname]
  · obtain ⟨r, s', h⟩ := getProject_returns env name s hs hd
    refine ⟨r, s', h, ?_⟩
    intro k hk
    obtain ⟨_, _, hcase⟩ := getProject_inv env name s s' r hs h
    rcases hcase with ⟨hr, _, _⟩ | ⟨i, q, hr, _, hq, hqn, hqf, _⟩
    · rw [hr] at hk; exact Option.noConfusion hk
    · have : i = k := by rw [hr] at hk; exact Option.some.inj hk
      subst this
      exact ⟨q, hq, hqn, hqf⟩

/-- C7 on the registry with a repeated name, for the name gadget of cell 1. -/
theorem getProject_after_reset_repopulates_witness :
    ∃ s', getProject providersOn "gadget" (resetProjects twinRegistry) = some (some 1, s') ∧
      s'.defaultProjects[1]? = some
        { Name := "gadget", Nwo := "acme/gadget", Branch := "master", GemName := "gadget"
          Gem := some "gem gadget"
          Travis := some "build acme/gadget@master"
          GitHub := some
            { CommitsThisWeek := 9, OpenPRs := 2, OpenIssues := 3,
              CommitsSinceLatestRelease := 12, LatestReleaseTag := "v2.1" }
          fetched := true } := by
  obtain ⟨i, p, g, s', h, hp, hn, hg, hs'⟩ :=
    (getProject_after_reset_repopulates providersOn twinRegistry "gadget" (Or.inl rfl)
      (by decide)).1 (by decide)
  have hfst : (getProject providersOn "gadget" (resetProjects twinRegistry)).map Prod.fst =
      some (some 1) := by decide
  rw [h] at hfst
  have hi : i = 1 := by simpa using hfst
  subst hi
  have hp1 : twinRegistry.defaultProjects[1]? =
      some (newProject "gadget" "acme/gadget" "master" "gadget") := rfl
  rw [hp1] at hp
  cases hp
  have hg1 : github providersOn.githubClient "acme/gadget" = some (some
      { CommitsThisWeek := 9, OpenPRs := 2, OpenIssues := 3,
        CommitsSinceLatestRelease := 12, LatestReleaseTag := "v2.1" }) := by decide
  have hg2 : github providersOn.githubClient "acme/gadget" = some g := hg
  rw [hg1] at hg2
  cases hg2
  exact ⟨s', h, hs'⟩

/-- C10: when cell `i` is the last registry cell named `name`, the index built by
`buildProjectMap` maps `name` to `i`; `getProject name` returns cell `i`, which then has
fetched = true, and leaves every other cell as it was; a cell followed by a later cell
of the same name is never returned and never modified by any call of `getProject`; and
if the name occurs in one cell only, the returned cell is that one. -/
theorem getProject_returns_last_named {G T : Type} (env : Providers G T) (s : State G T)
    (name : String) (i : Nat) (hs : s.Indexed)
    (hd : ∀ p ∈ s.defaultProjects, github env.githubClient p.Nwo ≠ none)
    (hi : LastNamed s.defaultProjects name i) :
    (buildProjectMap s).defaultProjectMap.map (fun m => m name) = some (some i) ∧
    (∃ s' q, getProject env name s = some (some i, s') ∧
      s'.defaultProjects[i]? = some q ∧ q.Name = name ∧ q.fetched = true ∧
      ∀ j, j ≠ i → s'.defaultProjects[j]? = s.defaultProjects[j]?) ∧
    (∀ (j : Nat) (q : Project G T), s.defaultProjects[j]? = some q →
      (∃ (k : Nat) (q' : Project G T), j < k ∧ s.defaultProjects[k]? = some q' ∧
        q'.Name = q.Name) →
      ∀ (name' : String) (r : Option Nat) (s' : State G T),
        getProject env name' s = some (r, s') →
        r ≠ some j ∧ s'.defaultProjects[j]? = some q) ∧
    (∀ (j : Nat) (p : Project G T), s.defaultProjects[j]? = some p → p.Name = name →
      (∀ (k : Nat) (q : Project G T), k ≠ j → s.defaultProjects[k]? = some q → q.Name ≠ name) →
      i = j) := by
  refine ⟨?_, ?_, ?_, ?_⟩
  · simp [buildProjectMap, index_of_lastNamed hi]
  · obtain ⟨r, s', h⟩ := getProject_returns env name s hs hd
    obtain ⟨_, _, hcase⟩ := getProject_inv env name s s' r hs h
    rcases hcase with ⟨_, _, hnone⟩ | ⟨i', q, hr, hl, hq, hqn, hqf, hframe⟩
    · rw [index_of_lastNamed hi] at hnone; exact Option.noConfusion hnone
    · have : i' = i := LastNamed_unique hl hi
      subst this
      subst hr
      exact ⟨s', q, h, hq, hqn, hqf, hframe⟩
  · intro j q hq ⟨k, q', hjk, hq', hname⟩ name' r s' h
    obtain ⟨_, _, hcase⟩ := getProject_inv env name' s s' r hs h
    rcases hcase with ⟨hr, hsame, _⟩ | ⟨i', _, hr, ⟨p, hp, hpn, hlater⟩, _, _, _, hframe⟩
    · subst hr
      exact ⟨fun e => Option.noConfusion e, by rw [hsame, hq]⟩
    · have hne : j ≠ i' := by
        intro e
        subst e
        rw [hq] at hp
        cases hp
        exact hlater k q' hjk hq' (hname.trans hpn)
      subst hr
      exact ⟨fun e => hne (Option.some.inj e).symm, by rw [hframe j hne, hq]⟩
  · intro j p hp hpn huniq
    have hj : LastNamed s.defaultProjects name j :=
      ⟨p, hp, hpn, fun k q hk hq => huniq k q (by omega) hq⟩
    exact LastNamed_unique hi hj

/-- C10 on the registry whose cells 0 and 2 are both named widget: the call returns
cell 2 and cell 0 keeps its unfetched record. -/
theorem getProject_returns_last_named_witness :
    ∃ s' q, getProject providersOn "widget" twinRegistry = some (some 2, s') ∧
      s'.defaultProjects[2]? = some q ∧ q.Nwo = "other/widget" ∧ q.fetched = true ∧
      s'.defaultProjects[0]? = some (newProject "widget" "acme/widget" "master" "widget") := by
  have hlast : LastNamed twinRegistry.defaultProjects "widget" 2 :=
    ⟨_, rfl, rfl, by
      intro j q hj hq
      obtain ⟨k, rfl⟩ : ∃ k, j = k + 3 := ⟨j - 3, by omega⟩
      simp [twinRegistry] at hq⟩
  obtain ⟨_, ⟨s', q, h, hq, _, hqf, hframe⟩, hnever, _⟩ :=
    getProject_returns_last_named providersOn twinRegistry "widget" 2 (Or.inl rfl)
      (by decide) hlast
  refine ⟨s', q, h, hq, ?_, hqf, ?_⟩
  · have hnwo : (getProject providersOn "widget" twinRegistry).bind
        (fun r => (r.2.defaultProjects[2]?).map (fun p => p.Nwo)) = some "other/widget" := by
      decide
    rw [h] at hnwo
    simp only [Option.some_bind, hq, Option.map_some', Option.some.injEq] at hnwo
    exact hnwo
  · rw [hframe 0 (by decide)]; rfl

/-! ## Fetching the whole registry -/

theorem github_eq_some_none_iff (githubClient : Option GitHubClient) (nwo : String) :
    github githubClient nwo = some none ↔ githubClient = none ∨ nwo = "" := by
  cases githubClient with
  | none => simp [github]
  | some c =>
    by_cases hn : nwo = ""
    · simp [github, hn]
    · obtain ⟨w, hw⟩ := Split_head nwo
      cases h1 : (strings.Split nwo '/')[1]? with
      | none => simp [github, hn, hw, h1]
      | some repo => simp [github, hn, hw, h1]

theorem fetchAll_spec {G T : Type} (env : Providers G T) (ps : List (Project G T))
    (hd : ∀ p ∈ ps, github env.githubClient p.Nwo ≠ none) :
    ∃ ps', fetchAll env ps = some ps' ∧ ps'.length = ps.length ∧
      ∀ (i : Nat) (p : Project G T), ps[i]? = some p →
        ∃ p', ps'[i]? = some p' ∧ p.fetch env = some p' := by
  induction ps with
  | nil => exact ⟨[], rfl, rfl, by simp⟩
  | cons p0 rest ih =>
    obtain ⟨rest', hrest, hlen, hall⟩ := ih (fun p hp => hd p (List.mem_cons_of_mem _ hp))
    cases h0 : p0.fetch env with
    | none =>
      exact absurd ((fetch_eq_none_iff env p0).1 h0) (hd p0 (List.mem_cons_self _ _))
    | some p0' =>
      refine ⟨p0' :: rest', by simp [fetchAll, h0, hrest], by simp [hlen], ?_⟩
      intro i p hp
      cases i with
      | zero =>
        simp only [List.getElem?_cons_zero, Option.some.injEq] at hp
        subst hp
        exact ⟨p0', by simp, h0⟩
      | succ i =>
        simp only [List.getElem?_cons_succ] at hp ⊢
        exact hall i p hp

/-- C3 as stated fails: with the source-control provider disabled for lack of a
credential, `getAllProjects` on the one-project registry completes and leaves a project
with fetched = true whose GitHub slot is empty. -/
theorem getAllProjects_leaves_github_slot_empty :
    providersOff.githubClient.isNone = true ∧
    ∃ s' p, getAllProjects providersOff widgetRegistry = some s' ∧
      s'.defaultProjects = [p] ∧ p.fetched = true ∧ p.GitHub = none ∧
      p.Gem = some "gem widget" ∧ p.Travis = some "build acme/widget@master" := by
  refine ⟨rfl, _, _, rfl, rfl, rfl, rfl, ?_, ?_⟩ <;> decide

/-- C3 (amended): when no source-control goroutine panics, `getAllProjects` completes
and every project of the registry has fetched = true with name, nwo, branch and
gem_name unchanged; a slot is empty afterwards exactly when it was empty before and
its provider delivered nil, which for the GitHub slot means that the client is
disabled for lack of a credential or the project's nwo is empty. -/
theorem getAllProjects_marks_all_fetched {G T : Type} (env : Providers G T) (s : State G T)
    (hd : ∀ p ∈ s.defaultProjects, github env.githubClient p.Nwo ≠ none) :
    ∃ s', getAllProjects env s = some s' ∧
      s'.defaultProjectMap = s.defaultProjectMap ∧
      s'.defaultProjects.length = s.defaultProjects.length ∧
      (∀ p' ∈ s'.defaultProjects, p'.fetched = true) ∧
      ∀ (i : Nat) (p : Project G T), s.defaultProjects[i]? = some p →
        ∃ p', s'.defaultProjects[i]? = some p' ∧ p'.fetched = true ∧
          p'.Name = p.Name ∧ p'.Nwo = p.Nwo ∧ p'.Branch = p.Branch ∧ p'.GemName = p.GemName ∧
          (p'.Gem = none ↔ p.Gem = none ∧ env.rubygem p.GemName = none) ∧
          (p'.Travis = none ↔ p.Travis = none ∧ env.travis p.Nwo p.Branch = none) ∧
          (p'.GitHub = none ↔ p.GitHub = none ∧ (env.githubClient = none ∨ p.Nwo = "")) := by
  obtain ⟨ps', hps', hlen, hall⟩ := fetchAll_spec env s.defaultProjects hd
  have hidx : ∀ (i : Nat) (p : Project G T), s.defaultProjects[i]? = some p →
      ∃ p', ps'[i]? = some p' ∧ p'.fetched = true ∧
        p'.Name = p.Name ∧ p'.Nwo = p.Nwo ∧ p'.Branch = p.Branch ∧ p'.GemName = p.GemName ∧
        (p'.Gem = none ↔ p.Gem = none ∧ env.rubygem p.GemName = none) ∧
        (p'.Travis = none ↔ p.Travis = none ∧ env.travis p.Nwo p.Branch = none) ∧
        (p'.GitHub = none ↔ p.GitHub = none ∧ (env.githubClient = none ∨ p.Nwo = "")) := by
    intro i p hp
    obtain ⟨p', hp', hf⟩ := hall i p hp
    refine ⟨p', hp', ?_⟩
    cases hg : github env.githubClient p.Nwo with
    | none => exact absurd hg (hd p (List.getElem?_mem hp))
    | some g =>
      rw [fetch_of_github env p g hg] at hf
      cases hf
      have hgn : g = none ↔ (env.githubClient = none ∨ p.Nwo = "") := by
        rw [← github_eq_some_none_iff, hg]
        simp
      obtain ⟨n, w, b, gn, gem, tr, gh, f⟩ := p
      cases gem <;> cases tr <;> cases gh <;> simp [hgn]
  refine ⟨{ s with defaultProjects := ps' }, by simp [getAllProjects, hps'], rfl, hlen, ?_, hidx⟩
  intro p' hp'
  obtain ⟨i, hi⟩ := List.mem_iff_getElem?.1 hp'
  have hlt : i < s.defaultProjects.length := by
    rcases Nat.lt_or_ge i ps'.length with h | h
    · omega
    · have hi' : ps'[i]? = some p' := hi
      rw [List.getElem?_eq_none h] at hi'; exact Option.noConfusion hi'
  obtain ⟨q, hq, hqf, _⟩ := hidx i s.defaultProjects[i] (List.getElem?_eq_getElem hlt)
  have hi' : ps'[i]? = some p' := hi
  rw [hq] at hi'
  cases hi'
  exact hqf

/-- C3 (amended) with a working client: cell 0 of the registry ends fetched with a
GitHub record. -/
theorem getAllProjects_marks_all_fetched_witness :
    ∃ s', getAllProjects providersOn twinRegistry = some s' ∧
      s'.defaultProjects.length = 3 ∧
      ∃ p', s'.defaultProjects[0]? = some p' ∧ p'.fetched = true ∧ p'.GitHub ≠ none := by
  obtain ⟨s', h, _, hlen, _, hidx⟩ :=
    getAllProjects_marks_all_fetched providersOn twinRegistry (by decide)
  obtain ⟨p', hp', hf, _, _, _, _, _, _, hgh⟩ :=
    hidx 0 (newProject "widget" "acme/widget" "master" "widget") rfl
  refine ⟨s', h, hlen, p', hp', hf, ?_⟩
  intro hnone
  rcases (hgh.1 hnone).2 with hc | hn
  · exact Option.noConfusion hc
  · exact absurd hn (by decide)

theorem fetchAll_names {G T : Type} (env : Providers G T) (ps ps' : List (Project G T))
    (h : fetchAll env ps = some ps') :
    ps'.map (fun p => p.Name) = ps.map (fun p => p.Name) := by
  induction ps generalizing ps' with
  | nil =>
    simp only [fetchAll, Option.some.injEq] at h
    subst h
    rfl
  | cons p rest ih =>
    cases hp : p.fetch env with
    | none => simp [fetchAll, hp] at h
    | some p' =>
      cases hr : fetchAll env rest with
      | none => simp [fetchAll, hp, hr] at h
      | some rest' =>
        simp only [fetchAll, hp, hr, Option.some.injEq] at h
        subst h
        simp [ih rest' hr, (fetch_keeps_name env p p' hp).1]

/-- The state invariant `Indexed` holds after `getAllProjects`. -/
theorem Indexed_getAllProjects {G T : Type} (env : Providers G T) (s s' : State G T)
    (hs : s.Indexed) (h : getAllProjects env s = some s') : s'.Indexed := by
  cases hf : fetchAll env s.defaultProjects with
  | none => simp [getAllProjects, hf] at h
  | some ps' =>
    simp only [getAllProjects, hf, Option.some.injEq] at h
    subst h
    exact Indexed_of_names s _ hs (fetchAll_names env _ _ hf) (Or.inl rfl)

/-! ## Loading the registry -/

theorem appendProjects_spec {G T : Type} (acc : List (Project G T)) (l : List String)
    (h : ∀ e ∈ l, '/' ∈ e.data) :
    ∃ ps : List (Project G T), appendProjects acc l = some (acc ++ ps) ∧
      ps.map (fun p => p.Nwo) = l ∧
      ∀ p ∈ ps, ∃ repo, (strings.Split p.Nwo '/')[1]? = some repo ∧
        p = newProject repo p.Nwo "master" repo := by
  induction l generalizing acc with
  | nil => exact ⟨[], by simp [appendProjects], rfl, by simp⟩
  | cons e rest ih =>
    cases he : (strings.Split e '/')[1]? with
    | none =>
      exact absurd (h e (List.mem_cons_self _ _)) ((Split_second_eq_none e).1 he)
    | some repo =>
      obtain ⟨ps, hps, hnwo, hshape⟩ :=
        ih (acc ++ [newProject repo e "master" repo])
          (fun x hx => h x (List.mem_cons_of_mem _ hx))
      refine ⟨newProject repo e "master" repo :: ps, ?_, ?_, ?_⟩
      · simp [appendProjects, he, hps]
      · simp [hnwo, newProject]
      · intro p hp
        rcases List.mem_cons.1 hp with rfl | hp
        · exact ⟨repo, he, rfl⟩
        · exact hshape p hp

theorem expandOrgs_spec {G T : Type} (githubClient : Option GitHubClient)
    (listing : String → List String) (acc : List (Project G T)) (orgs : List String)
    (h2 : ∀ org ∈ orgs, allRepos githubClient org = some (listing org))
    (h3 : ∀ org ∈ orgs, ∀ e ∈ listing org, '/' ∈ e.data) :
    ∃ ps : List (Project G T), expandOrgs githubClient acc orgs = some (acc ++ ps) ∧
      ps.map (fun p => p.Nwo) = (orgs.map listing).flatten ∧
      ∀ p ∈ ps, ∃ repo, (strings.Split p.Nwo '/')[1]? = some repo ∧
        p = newProject repo p.Nwo "master" repo := by
  induction orgs generalizing acc with
  | nil => exact ⟨[], by simp [expandOrgs], rfl, by simp⟩
  | cons org rest ih =>
    obtain ⟨xs, hxs, hnwo, hshape⟩ :=
      appendProjects_spec acc (listing org) (h3 org (List.mem_cons_self _ _))
    obtain ⟨ps, hps, hnwo', hshape'⟩ :=
      ih (acc ++ xs) (fun o ho => h2 o (List.mem_cons_of_mem _ ho))
        (fun o ho => h3 o (List.mem_cons_of_mem _ ho))
    refine ⟨xs ++ ps, ?_, ?_, ?_⟩
    · simp [expandOrgs, h2 org (List.mem_cons_self _ _), hxs, hps]
    · simp [hnwo, hnwo']
    · intro p hp
      rcases List.mem_append.1 hp with hp | hp
      · exact hshape p hp
      · exact hshape' p hp

theorem allProjects_spec {G T : Type} (githubClient : Option GitHubClient) (r : Repos)
    (listing : String → List String)
    (h1 : ∀ e ∈ r.Repos, '/' ∈ e.data)
    (h2 : ∀ org ∈ r.Orgs, allRepos githubClient org = some (listing org))
    (h3 : ∀ org ∈ r.Orgs, ∀ e ∈ listing org, '/' ∈ e.data) :
    ∃ ps : List (Project G T), allProjects githubClient r = some ps ∧
      ps.map (fun p => p.Nwo) = r.Repos ++ (r.Orgs.map listing).flatten ∧
      ∀ p ∈ ps, ∃ repo, (strings.Split p.Nwo '/')[1]? = some repo ∧
        p = newProject repo p.Nwo "master" repo := by
  obtain ⟨xs, hxs, hnwo, hshape⟩ := appendProjects_spec ([] : List (Project G T)) r.Repos h1
  obtain ⟨ps, hps, hnwo', hshape'⟩ := expandOrgs_spec githubClient listing ([] ++ xs) r.Orgs h2 h3
  refine ⟨xs ++ ps, ?_, ?_, ?_⟩
  · simp only [List.nil_append] at hxs hps
    simp only [allProjects, hxs, hps]
  · simp [hnwo, hnwo']
  · intro p hp
    rcases List.mem_append.1 hp with hp | hp
    · exact hshape p hp
    · exact hshape' p hp

theorem appendProjects_slash {G T : Type} (acc res : List (Project G T)) (l : List String)
    (h : appendProjects acc l = some res) (hacc : ∀ p ∈ acc, '/' ∈ p.Nwo.data) :
    ∀ p ∈ res, '/' ∈ p.Nwo.data := by
  induction l generalizing acc with
  | nil =>
    simp only [appendProjects, Option.some.injEq] at h
    subst h
    exact hacc
  | cons e rest ih =>
    cases he : (strings.Split e '/')[1]? with
    | none => simp [appendProjects, he] at h
    | some repo =>
      simp only [appendProjects, he] at h
      refine ih _ h ?_
      intro p hp
      rcases List.mem_append.1 hp with hp | hp
      · exact hacc p hp
      · simp only [List.mem_singleton] at hp
        subst hp
        by_contra hno
        rw [(Split_second_eq_none e).2 hno] at he
        exact Option.noConfusion he

theorem expandOrgs_slash {G T : Type} (githubClient : Option GitHubClient)
    (acc res : List (Project G T)) (orgs : List String)
    (h : expandOrgs githubClient acc orgs = some res) (hacc : ∀ p ∈ acc, '/' ∈ p.Nwo.data) :
    ∀ p ∈ res, '/' ∈ p.Nwo.data := by
  induction orgs generalizing acc with
  | nil =>
    simp only [expandOrgs, Option.some.injEq] at h
    subst h
    exact hacc
  | cons org rest ih =>
    cases hx : allRepos githubClient org with
    | none => simp [expandOrgs, hx] at h
    | some x =>
      cases ha : appendProjects acc x with
      | none => simp [expandOrgs, hx, ha] at h
      | some acc' =>
        simp only [expandOrgs, hx, ha] at h
        exact ih acc' h (appendProjects_slash acc acc' x ha hacc)

/-- Every registry that `allProjects` returns is one on which no source-control
goroutine panics, whatever the client is later. -/
theorem allProjects_registry_delivers {G T : Type} (githubClient client : Option GitHubClient)
    (r : Repos) (ps : List (Project G T)) (h : allProjects githubClient r = some ps) :
    ∀ p ∈ ps, github client p.Nwo ≠ none := by
  intro p hp hnone
  have hslash : ∀ q ∈ ps, '/' ∈ q.Nwo.data := by
    cases ha : appendProjects ([] : List (Project G T)) r.Repos with
    | none => simp [allProjects, ha] at h
    | some acc =>
      simp only [allProjects, ha] at h
      exact expandOrgs_slash githubClient acc ps r.Orgs h
        (appendProjects_slash [] acc r.Repos ha (by simp))
  exact ((github_eq_none_iff client p.Nwo).1 hnone).2.2 (hslash p hp)

/-- With a client, the nwo values that `allProjects` returns are the explicit entries
in configuration order followed, in organization order, by the full names the service
lists for each organization, each passed through `Stringify`, in listing order; nothing
is dropped or merged. -/
theorem allProjects_nwo_of_client {G T : Type} (c : GitHubClient) (r : Repos)
    (h1 : ∀ e ∈ r.Repos, '/' ∈ e.data)
    (h3 : ∀ org ∈ r.Orgs, ∀ e ∈ (c.ListByOrg org).1, '/' ∈ (c.Stringify e).data) :
    ∃ ps : List (Project G T), allProjects (some c) r = some ps ∧
      ps.map (fun p => p.Nwo) =
        r.Repos ++ (r.Orgs.map (fun org => (c.ListByOrg org).1.map c.Stringify)).flatten ∧
      ps.length =
        r.Repos.length + (r.Orgs.map (fun org => ((c.ListByOrg org).1).length)).sum := by
  obtain ⟨ps, hps, hnwo, _⟩ :=
    allProjects_spec (G := G) (T := T) (some c) r
      (fun org => (c.ListByOrg org).1.map c.Stringify) h1
      (fun org _ => rfl)
      (fun org ho e he => by
        obtain ⟨x, hx, rfl⟩ := List.mem_map.1 he
        exact h3 org ho x hx)
  refine ⟨ps, hps, hnwo, ?_⟩
  have := congrArg List.length hnwo
  simpa [List.length_flatten, Function.comp_def] using this

/-- C1 fails on the code: for the explicit entry acme/widget and the organization acme,
whose listing is acme/widget, acme/gadget, `allProjects` with a client returns three
projects in the claimed order, but the two expanded ones carry the listed names as
`gh.Stringify` renders them, between double quotes; the nwo sequence is therefore not
the explicit entries followed by the provider's listing, and acme/widget occurs once
instead of twice. At the package-level initializer, where the client is still nil, the
same configuration makes `allRepos` panic and no registry is returned. -/
theorem allProjects_expanded_nwo_quoted :
    healthyClient.ListByOrg "acme" = (["acme/widget", "acme/gadget"], none) ∧
    (∃ ps : List (Project String String),
      allProjects (some healthyClient) overlappingConfig = some ps ∧
      ps.map (fun p => p.Nwo) = ["acme/widget", "\x22acme/widget\x22", "\x22acme/gadget\x22"] ∧
      ps.map (fun p => p.Name) = ["widget", "widget\x22", "gadget\x22"] ∧
      ps.map (fun p => p.Nwo) ≠
        overlappingConfig.Repos ++
          (overlappingConfig.Orgs.map (fun org => (healthyClient.ListByOrg org).1)).flatten ∧
      (ps.map (fun p => p.Nwo)).count "acme/widget" = 1) ∧
    (defaultProjectsInit overlappingConfig : Option (List (Project String String))) = none := by
  refine ⟨rfl, ⟨_, rfl, ?_, ?_, ?_, ?_⟩, ?_⟩ <;> decide

/-- C2: under the conditions of C1, every project returned by `allProjects` whose nwo
is owner/repo has name repo, that nwo, branch master, gem_name repo, three empty slots
and fetched = false; and the configuration with repos acme/widget and no orgs yields
exactly the one project widget, whatever the client. -/
theorem allProjects_project_shape {G T : Type} (githubClient : Option GitHubClient) (r : Repos)
    (listing : String → List String)
    (h1 : ∀ e ∈ r.Repos, '/' ∈ e.data)
    (h2 : ∀ org ∈ r.Orgs, allRepos githubClient org = some (listing org))
    (h3 : ∀ org ∈ r.Orgs, ∀ e ∈ listing org, '/' ∈ e.data) :
    (∃ ps : List (Project G T), allProjects githubClient r = some ps ∧
      ps.map (fun p => p.Nwo) = r.Repos ++ (r.Orgs.map listing).flatten ∧
      ∀ p ∈ ps, ∀ owner repo : String, '/' ∉ owner.data → '/' ∉ repo.data →
        p.Nwo = owner ++ "/" ++ repo →
        p = { Name := repo, Nwo := owner ++ "/" ++ repo, Branch := "master", GemName := repo
              Gem := none, Travis := none, GitHub := none, fetched := false }) ∧
    ∀ (c : Option GitHubClient) (exclude : List String),
      (allProjects c { Orgs := [], Repos := ["acme/widget"], Exclude := exclude } :
          Option (List (Project G T))) = some
        [{ Name := "widget", Nwo := "acme/widget", Branch := "master", GemName := "widget"
           Gem := none, Travis := none, GitHub := none, fetched := false }] := by
  constructor
  · obtain ⟨ps, hps, hnwo, hshape⟩ := allProjects_spec (G := G) (T := T) githubClient r listing h1 h2 h3
    refine ⟨ps, hps, hnwo, ?_⟩
    intro p hp owner repo ho hr hp_nwo
    obtain ⟨repo', hsplit, hpeq⟩ := hshape p hp
    rw [hp_nwo, Split_owner_repo owner repo ho hr] at hsplit
    simp only [List.getElem?_cons_succ, List.getElem?_cons_zero, Option.some.injEq] at hsplit
    subst hsplit
    rw [hpeq, hp_nwo]
    rfl
  · intro c exclude
    have hsplit : (strings.Split "acme/widget" '/')[1]? = some "widget" := by decide
    simp [allProjects, appendProjects, expandOrgs, hsplit, newProject]

/-- C2 on the overlapping configuration: the project of the explicit entry acme/widget,
and the project built from the name the organization expansion resolves to, which is
the listed acme/gadget between the double quotes of `gh.Stringify`. -/
theorem allProjects_project_shape_witness :
    ∃ ps : List (Project String String), allProjects (some healthyClient) overlappingConfig = some ps ∧
      (∀ p ∈ ps, p.Nwo = "acme/widget" →
        p = { Name := "widget", Nwo := "acme/widget", Branch := "master", GemName := "widget"
              Gem := none, Travis := none, GitHub := none, fetched := false }) ∧
      (∀ p ∈ ps, p.Nwo = "\x22acme/gadget\x22" →
        p = { Name := "gadget\x22", Nwo := "\x22acme/gadget\x22", Branch := "master",
              GemName := "gadget\x22"
              Gem := none, Travis := none, GitHub := none, fetched := false }) := by
  obtain ⟨ps, h, _, hshape⟩ :=
    (allProjects_project_shape (G := String) (T := String) (some healthyClient) overlappingConfig
      (fun org => if org = "acme" then ["\x22acme/widget\x22", "\x22acme/gadget\x22"] else [])
      (by decide) (by decide) (by decide)).1
  refine ⟨ps, h, fun p hp hn => ?_, fun p hp hn => ?_⟩
  · exact hshape p hp "acme" "widget" (by decide) (by decide) hn
  · have e : "\x22acme" ++ "/" ++ "gadget\x22" = "\x22acme/gadget\x22" := by decide
    have := hshape p hp "\x22acme" "gadget\x22" (by decide) (by decide) (hn.trans e.symm)
    rw [e] at this
    exact this

end Dashboard
